import Mathlib
/-!
Shallow embedding of the VoiceChat SFU server (`src/server.py`, version 1.2.1).

The server keeps four global dictionaries guarded by two locks:
`rooms : defaultdict(set)` (room name → set of ClientInfo),
`clients_by_tcp` (tcp connection → ClientInfo),
`clients_by_name` (name → ClientInfo) and
`udp_to_client` (udp address → ClientInfo).

Python dictionaries are embedded as association lists with first-match
lookup; Python sets of `ClientInfo` namedtuples are embedded as duplicate
free lists with structural equality.  TCP connection objects are embedded
as natural-number handles, UDP addresses as `Nat × Nat` pairs, datagrams
as lists of byte values (`List Nat`).  Each handler of the source becomes
a pure state-transforming function; the sends it performs are returned as
an explicit list.
-/

/-- UDP transport address `(host, port)` as observed by `recvfrom`. -/
abbrev Endpoint := Nat × Nat

/-- `ClientInfo = namedtuple("ClientInfo", ["name", "tcp_conn", "udp_addr", "room"])`
(src/server.py line 35).  `tcp_conn` is the handle of the TCP connection,
`udp_addr` is `None` until the first valid media datagram binds it. -/
structure ClientInfo where
  name : String
  tcp_conn : Nat
  udp_addr : Option Endpoint
  room : String
deriving DecidableEq, Repr

/-- First-match lookup in an association list (Python `d[k]` / `k in d`). -/
def alookup {K V : Type} [DecidableEq K] (l : List (K × V)) (k : K) : Option V :=
  match l with
  | [] => none
  | (k', v) :: t => if k' = k then some v else alookup t k

/-- Python `d[k] = v`: replace the first binding of `k`, or append one. -/
def aset {K V : Type} [DecidableEq K] (l : List (K × V)) (k : K) (v : V) :
    List (K × V) :=
  match l with
  | [] => [(k, v)]
  | (k', v') :: t => if k' = k then (k, v) :: t else (k', v') :: aset t k v

/-- Python `d.pop(k, None)` / `del d[k]`: remove the bindings of `k`. -/
def adel {K V : Type} [DecidableEq K] (l : List (K × V)) (k : K) : List (K × V) :=
  match l with
  | [] => []
  | (k', v) :: t => if k' = k then adel t k else (k', v) :: adel t k

/-- Python `set.add`: append the element unless already present. -/
def listAdd {A : Type} [DecidableEq A] (l : List A) (a : A) : List A :=
  if a ∈ l then l else l ++ [a]

/-- Python `set.discard`: remove the element. -/
def listDiscard {A : Type} [DecidableEq A] (l : List A) (a : A) : List A :=
  l.filter (fun x => x ≠ a)

/-- Trailing-zero strip: Python `bytes.rstrip(b'\x00')`. -/
def dropTrailingZeros (l : List Nat) : List Nat :=
  (l.reverse.dropWhile (fun b => b = 0)).reverse

/-- Is `b` a UTF-8 continuation byte `0x80..0xBF`? -/
def contB (b : Nat) : Bool := 0x80 ≤ b && b ≤ 0xBF

/-- Valid second byte of a three-byte sequence with lead `b1` (excludes
overlong encodings for lead `0xE0` and surrogates for lead `0xED`). -/
def cont3B (b1 b2 : Nat) : Bool :=
  if b1 = 0xE0 then 0xA0 ≤ b2 && b2 ≤ 0xBF
  else if b1 = 0xED then 0x80 ≤ b2 && b2 ≤ 0x9F
  else contB b2

/-- Valid second byte of a four-byte sequence with lead `b1` (excludes
overlong encodings for lead `0xF0` and values above U+10FFFF for `0xF4`). -/
def cont4B (b1 b2 : Nat) : Bool :=
  if b1 = 0xF0 then 0x90 ≤ b2 && b2 ≤ 0xBF
  else if b1 = 0xF4 then 0x80 ≤ b2 && b2 ≤ 0x8F
  else contB b2

/-- One step of the incremental UTF-8 decoder on input `b :: t`.  Returns
the decoded character (`none` on a decoding error) and the total number of
bytes consumed.  On error the number of bytes consumed is the length of the
maximal subpart of a valid sequence, exactly as CPython's UTF-8 codec
consumes before invoking the error handler. -/
def utf8Step (b : Nat) (t : List Nat) : Option Char × Nat :=
  if b < 0x80 then (some (Char.ofNat b), 1)
  else if 0xC2 ≤ b && b ≤ 0xDF then
    match t with
    | [] => (none, 1)
    | b2 :: _ =>
      if contB b2 then (some (Char.ofNat ((b - 0xC0) * 0x40 + (b2 - 0x80))), 2)
      else (none, 1)
  else if 0xE0 ≤ b && b ≤ 0xEF then
    match t with
    | [] => (none, 1)
    | b2 :: t2 =>
      if cont3B b b2 then
        match t2 with
        | [] => (none, 2)
        | b3 :: _ =>
          if contB b3 then
            (some (Char.ofNat (((b - 0xE0) * 0x40 + (b2 - 0x80)) * 0x40 + (b3 - 0x80))), 3)
          else (none, 2)
      else (none, 1)
  else if 0xF0 ≤ b && b ≤ 0xF4 then
    match t with
    | [] => (none, 1)
    | b2 :: t2 =>
      if cont4B b b2 then
        match t2 with
        | [] => (none, 2)
        | b3 :: t3 =>
          if contB b3 then
            match t3 with
            | [] => (none, 3)
            | b4 :: _ =>
              if contB b4 then
                (some (Char.ofNat ((((b - 0xF0) * 0x40 + (b2 - 0x80)) * 0x40 +
                  (b3 - 0x80)) * 0x40 + (b4 - 0x80))), 4)
              else (none, 3)
          else (none, 2)
      else (none, 1)
  else (none, 1)

/-- Fuel-indexed decoding loop: one `utf8Step` per iteration, dropping the
consumed bytes.  Structural recursion on the fuel keeps the function
kernel-reducible; callers pass the list length as fuel, which suffices
because each step consumes at least one byte. -/
def utf8DecodeGo (replaceErrors : Bool) : Nat → List Nat → List Char
  | _, [] => []
  | 0, _ :: _ => []
  | fuel + 1, b :: t =>
    let r := utf8Step b t
    (match r.1 with
     | some c => [c]
     | none => if replaceErrors then [Char.ofNat 0xFFFD] else []) ++
      utf8DecodeGo replaceErrors fuel (t.drop (r.2 - 1))

/-- Python `bytes.decode('utf-8', errors=...)`: with `replaceErrors = false`
this is `errors='ignore'` (decoding errors emit nothing), with
`replaceErrors = true` it is `errors='replace'` (each error emits U+FFFD). -/
def utf8DecodeWith (replaceErrors : Bool) (l : List Nat) : List Char :=
  utf8DecodeGo replaceErrors l.length l

/-- `data[:32].rstrip(b'\x00').decode('utf-8', errors='ignore')`
(src/server.py line 159): the name the UDP binder extracts from a datagram. -/
def extractName (data : List Nat) : String :=
  String.mk (utf8DecodeWith false (dropTrailingZeros (data.take 32)))

/-- Number of bytes of the UTF-8 encoding of a character. -/
def charBytes (c : Char) : Nat :=
  if c.toNat < 0x80 then 1
  else if c.toNat < 0x800 then 2
  else if c.toNat < 0x10000 then 3
  else 4

/-- Number of bytes of the UTF-8 encoding of a character list. -/
def utf8Len (l : List Char) : Nat := (l.map charBytes).sum

/-- Number of bytes of the UTF-8 encoding of a string. -/
def strBytes (s : String) : Nat := utf8Len s.data

/-- The four global dictionaries of src/server.py lines 38-41. -/
structure ServerState where
  rooms : List (String × List ClientInfo)
  clients_by_tcp : List (Nat × ClientInfo)
  clients_by_name : List (String × ClientInfo)
  udp_to_client : List (Endpoint × ClientInfo)
deriving DecidableEq, Repr

/-- The state at server start: all four dictionaries empty. -/
def initState : ServerState := ⟨[], [], [], []⟩

/-- Reading `rooms[r]` without mutation (`rooms.get(r, [])`). -/
def roomsGet (s : ServerState) (r : String) : List ClientInfo :=
  (alookup s.rooms r).getD []

/-- The `defaultdict` access `rooms[r]`: reading a missing key inserts an
empty set.  Returns the state after the access. -/
def roomsEnsure (s : ServerState) (r : String) : ServerState :=
  if (alookup s.rooms r).isSome then s
  else { s with rooms := s.rooms ++ [(r, [])] }

/-- A control message as far as the server inspects it: the values of the
`type`, `user`, `room` and `payload` keys of the received JSON object
(`none` when the key is absent). -/
structure CtrlMsg where
  type : Option String
  user : Option String
  room : Option String
  payload : Option String
deriving DecidableEq, Repr

/-- A message the server writes to a control connection, at the JSON level. -/
inductive OutMsg where
  | err (reason : String)
  | joined (room : String)
  | text (payload : String)
  | roomList (rs : List String)
  | userList (us : List String)
deriving DecidableEq, Repr

/-- The handshake part of `handle_tcp_client` (src/server.py lines 50-83),
given the parse of the first received data (`none` = `json.JSONDecodeError`).
Returns the new state, the replies sent on this connection, and whether the
session reached the ACTIVE message loop.  The `msg["user"]` `KeyError` path
(exception caught at line 99, `finally: cleanup_client`, a no-op for an
unregistered connection) sends nothing and does not join. -/
def handshake (s : ServerState) (conn : Nat) (m : Option CtrlMsg) :
    ServerState × List OutMsg × Bool :=
  match m with
  | none => (s, [OutMsg.err "Некорректный JSON"], false)
  | some msg =>
    if msg.type ≠ some "join" then (s, [OutMsg.err "Ожидался join"], false)
    else
      match msg.user with
      | none => (s, [], false)
      | some user =>
        let room := msg.room.getD "general"
        if (alookup s.clients_by_name user).isSome then
          (s, [OutMsg.err "Имя уже занято"], false)
        else
          let client : ClientInfo := ⟨user, conn, none, room⟩
          ({ s with
              clients_by_tcp := aset s.clients_by_tcp conn client,
              clients_by_name := aset s.clients_by_name user client,
              rooms := aset s.rooms room (listAdd (roomsGet s room) client) },
           [OutMsg.joined room], true)

/-- `broadcast_text` (src/server.py lines 135-142).  The `rooms[room]`
access is a `defaultdict` access; a send failure to one target is swallowed,
so sends are returned as a plain list.  The guard is
`c.tcp_conn != exclude and c.tcp_conn`; a socket object is always truthy. -/
def broadcast_text (s : ServerState) (room : String) (text : String)
    (exclude : Nat) : ServerState × List (Nat × OutMsg) :=
  let s' := roomsEnsure s room
  (s',
   ((roomsGet s' room).filter (fun c => c.tcp_conn ≠ exclude)).map
     (fun c => (c.tcp_conn, OutMsg.text text)))

/-- Result of `handle_tcp_message`: either a normal return (new state, sends
performed, and whether `"LEAVE"` was returned), or an uncaught exception
(`KeyError` from `msg['payload']`). -/
inductive MsgResult where
  | ok (s : ServerState) (sends : List (Nat × OutMsg)) (leave : Bool)
  | exn
deriving DecidableEq, Repr

/-- `handle_tcp_message` (src/server.py lines 105-132). -/
def handle_tcp_message (s : ServerState) (conn : Nat) (m : CtrlMsg) : MsgResult :=
  match alookup s.clients_by_tcp conn with
  | none => MsgResult.ok s [] false
  | some client =>
    if m.type = some "text" then
      match m.payload with
      | none => MsgResult.exn
      | some p =>
        let r := broadcast_text s client.room (client.name ++ ": " ++ p) conn
        MsgResult.ok r.1 r.2 false
    else if m.type = some "list_rooms" then
      MsgResult.ok s [(conn, OutMsg.roomList (s.rooms.map Prod.fst))] false
    else if m.type = some "list_users" then
      MsgResult.ok s
        [(conn, OutMsg.userList ((roomsGet s client.room).map ClientInfo.name))] false
    else if m.type = some "leave" then
      MsgResult.ok s [] true
    else
      MsgResult.ok s [] false

/-- `cleanup_client` (src/server.py lines 202-233).  The UDP-mapping purge
runs in a spawned thread in the source; it is embedded here as part of the
same atomic step. -/
def cleanup_client (s : ServerState) (conn : Nat) : ServerState :=
  match alookup s.clients_by_tcp conn with
  | none => s
  | some client =>
    let l' := (roomsGet s client.room).filter (fun x => x ≠ client)
    { s with
      rooms := if l' = [] then adel s.rooms client.room
               else aset s.rooms client.room l',
      clients_by_tcp := adel s.clients_by_tcp conn,
      clients_by_name := adel s.clients_by_name client.name,
      udp_to_client := s.udp_to_client.filter (fun e => e.2.name ≠ client.name) }

/-- One iteration of the ACTIVE message loop of `handle_tcp_client`
(src/server.py lines 86-102): `none` is an empty read or undecodable data
(both break the loop), an exception from `handle_tcp_message` breaks the
loop, `"LEAVE"` breaks the loop; breaking runs `cleanup_client` in the
`finally` block.  Returns the new state, the sends, and whether the session
stays open. -/
def session_step (s : ServerState) (conn : Nat) (m : Option CtrlMsg) :
    ServerState × List (Nat × OutMsg) × Bool :=
  match m with
  | none => (cleanup_client s conn, [], false)
  | some msg =>
    match handle_tcp_message s conn msg with
    | MsgResult.exn => (cleanup_client s conn, [], false)
    | MsgResult.ok s' sends leave =>
      if leave then (cleanup_client s' conn, sends, false) else (s', sends, true)

/-- The SFU fan-out (src/server.py lines 187-196): a `defaultdict` access
`rooms[room]`, then `sendto(audio, other.udp_addr)` for every member with a
bound `udp_addr` different from the sender's address. -/
def fanOut (s : ServerState) (addr : Endpoint) (audio : List Nat)
    (room : String) : ServerState × List (Endpoint × List Nat) :=
  let s' := roomsEnsure s room
  (s',
   (roomsGet s' room).filterMap (fun other =>
     match other.udp_addr with
     | some a => if a ≠ addr then some (a, audio) else none
     | none => none))

/-- One iteration of `udp_audio_server` (src/server.py lines 150-196) on a
received datagram `data` from `addr`: length check, first-datagram name
binding, and fan-out.  Returns the new state and the outbound datagrams. -/
def udp_step (s : ServerState) (addr : Endpoint) (data : List Nat) :
    ServerState × List (Endpoint × List Nat) :=
  if data.length < 32 then (s, [])
  else
    match alookup s.udp_to_client addr with
    | some client => fanOut s addr data client.room
    | none =>
      let raw_name := extractName data
      if raw_name = "" ∨ 32 < raw_name.length then (s, [])
      else
        match alookup s.clients_by_name raw_name with
        | none => (s, [])
        | some old =>
          let new_client : ClientInfo := ⟨old.name, old.tcp_conn, some addr, old.room⟩
          let s1 := { s with
            clients_by_tcp := aset s.clients_by_tcp old.tcp_conn new_client,
            clients_by_name := aset s.clients_by_name raw_name new_client }
          let s2 := { s1 with
            rooms := aset s1.rooms old.room
              (listAdd ((roomsGet s1 old.room).filter (fun x => x ≠ old)) new_client) }
          let s3 := { s2 with
            udp_to_client := aset s2.udp_to_client addr new_client }
          fanOut s3 addr (data.drop 32) new_client.room

/-- `list(rooms.keys())` as sent by the `list_rooms` reply. -/
def listRooms (s : ServerState) : List String := s.rooms.map Prod.fst

/-- A two-client test configuration: Alice (conn 0) and Bob (conn 1) joined
to room "general". -/
def stateAliceBob : ServerState :=
  (handshake ((handshake initState 0
      (some ⟨some "join", some "Alice", some "general", none⟩)).1) 1
      (some ⟨some "join", some "Bob", some "general", none⟩)).1

/-- 32-byte name prefix "Alice" followed by zero padding. -/
def prefAlice : List Nat := [65, 108, 105, 99, 101] ++ List.replicate 27 0

/-- 32-byte name prefix "Bob" followed by zero padding. -/
def prefBob : List Nat := [66, 111, 98] ++ List.replicate 29 0

/-- Alice and Bob joined to "general" and both media-bound: Alice's media
endpoint is (1,1), Bob's is (3,3). -/
def stateBound : ServerState :=
  (udp_step ((udp_step stateAliceBob (1, 1) (prefAlice ++ [7])).1) (3, 3)
    (prefBob ++ [9])).1

/-- A joined participant named "A" (control handle 0, room "general"). -/
def stateA : ServerState :=
  (handshake initState 0 (some ⟨some "join", some "A", some "general", none⟩)).1

/-- Modelled from the spec: the claim's decoding of the name prefix — bytes
0..32, trailing zero bytes stripped, decoded as UTF-8 with invalid
sequences REPLACED (each error becomes U+FFFD), as §4.4 of the spec words
it.  The source instead decodes with `errors='ignore'`. -/
def extractNameReplace (data : List Nat) : String :=
  String.mk (utf8DecodeWith true (dropTrailingZeros (data.take 32)))

/-- Invariant: every set stored in the room index is non-empty. -/
def InvRoomsNonempty (s : ServerState) : Prop := ∀ p ∈ s.rooms, p.2 ≠ []

/-- Invariant: every participant in the connection index is a member of its
room's set. -/
def InvTcpMem (s : ServerState) : Prop :=
  ∀ cn c, alookup s.clients_by_tcp cn = some c → c ∈ roomsGet s c.room

/-- Invariant: every participant in the name index is a member of its
room's set. -/
def InvNameMem (s : ServerState) : Prop :=
  ∀ n c, alookup s.clients_by_name n = some c → c ∈ roomsGet s c.room

/-- Invariant: every endpoint-index record's name is registered, with the
same room (the endpoint-index record may be stale after a re-bind, but its
name and room stay current). -/
def InvUdpName (s : ServerState) : Prop :=
  ∀ p ∈ s.udp_to_client,
    ∃ c', alookup s.clients_by_name p.2.name = some c' ∧ c'.room = p.2.room

/-- Invariant: the connection index maps each handle to a record carrying
that handle. -/
def InvTcpKey (s : ServerState) : Prop :=
  ∀ cn c, alookup s.clients_by_tcp cn = some c → c.tcp_conn = cn

/-- Invariant: the name index maps each name to a record carrying it. -/
def InvNameKey (s : ServerState) : Prop :=
  ∀ n c, alookup s.clients_by_name n = some c → c.name = n

/-- The registry invariants that hold in every reachable server state. -/
def RegInv (s : ServerState) : Prop :=
  InvRoomsNonempty s ∧ InvTcpMem s ∧ InvNameMem s ∧ InvUdpName s
    ∧ InvTcpKey s ∧ InvNameKey s

/-- States reachable from server start by any interleaving of the four
event handlers: a handshake on a fresh connection, one ACTIVE-loop
iteration, an abrupt disconnect (`finally: cleanup_client`), and one UDP
datagram. -/
inductive Reachable : ServerState → Prop where
  | init : Reachable initState
  | hs (s : ServerState) (conn : Nat) (m : Option CtrlMsg) :
      Reachable s → Reachable (handshake s conn m).1
  | step (s : ServerState) (conn : Nat) (m : Option CtrlMsg) :
      Reachable s → Reachable (session_step s conn m).1
  | disconnect (s : ServerState) (conn : Nat) :
      Reachable s → Reachable (cleanup_client s conn)
  | media (s : ServerState) (a : Endpoint) (d : List Nat) :
      Reachable s → Reachable (udp_step s a d).1

theorem alookup_aset_self {K V : Type} [DecidableEq K]
    (l : List (K × V)) (k : K) (v : V) : alookup (aset l k v) k = some v := by
  induction l with
  | nil => simp [aset, alookup]
  | cons p t ih =>
    obtain ⟨k', v'⟩ := p
    by_cases h : k' = k
    · simp [aset, h, alookup]
    · simp [aset, h, alookup, ih]

theorem alookup_aset_ne {K V : Type} [DecidableEq K]
    (l : List (K × V)) (k k' : K) (v : V) (h : k' ≠ k) :
    alookup (aset l k v) k' = alookup l k' := by
  have hks : ¬ k = k' := fun hh => h hh.symm
  induction l with
  | nil => simp [aset, alookup, hks]
  | cons p t ih =>
    obtain ⟨k0, v0⟩ := p
    by_cases h0 : k0 = k
    · subst h0
      simp [aset, alookup, hks]
    · simp [aset, h0, alookup, ih]

theorem alookup_adel_self {K V : Type} [DecidableEq K]
    (l : List (K × V)) (k : K) : alookup (adel l k) k = none := by
  induction l with
  | nil => simp [adel, alookup]
  | cons p t ih =>
    obtain ⟨k0, v0⟩ := p
    by_cases h0 : k0 = k
    · simpa [adel, h0, alookup] using ih
    · simpa [adel, h0, alookup] using ih

theorem alookup_adel_ne {K V : Type} [DecidableEq K]
    (l : List (K × V)) (k k' : K) (h : k' ≠ k) :
    alookup (adel l k) k' = alookup l k' := by
  have hks : ¬ k = k' := fun hh => h hh.symm
  induction l with
  | nil => simp [adel, alookup]
  | cons p t ih =>
    obtain ⟨k0, v0⟩ := p
    by_cases h0 : k0 = k
    · subst h0
      simp [adel, alookup, hks, ih]
    · by_cases h1 : k0 = k'
      · simp [adel, h0, alookup, h1, h]
      · simp [adel, h0, alookup, h1, ih]

theorem mem_aset {K V : Type} [DecidableEq K]
    {l : List (K × V)} {k : K} {v : V} {p : K × V} (h : p ∈ aset l k v) :
    p = (k, v) ∨ p ∈ l := by
  induction l with
  | nil => simpa [aset] using h
  | cons q t ih =>
    obtain ⟨k0, v0⟩ := q
    by_cases h0 : k0 = k
    · simp [aset, h0] at h
      rcases h with h | h
      · exact Or.inl h
      · exact Or.inr (List.mem_cons_of_mem _ h)
    · simp [aset, h0] at h
      rcases h with h | h
      · exact Or.inr (by simp [h])
      · rcases ih h with h' | h'
        · exact Or.inl h'
        · exact Or.inr (List.mem_cons_of_mem _ h')

theorem alookup_mem {K V : Type} [DecidableEq K]
    {l : List (K × V)} {k : K} {v : V} (h : alookup l k = some v) : (k, v) ∈ l := by
  induction l with
  | nil => simp [alookup] at h
  | cons q t ih =>
    obtain ⟨k0, v0⟩ := q
    by_cases h0 : k0 = k
    · subst h0
      simp [alookup] at h
      simp [h]
    · simp [alookup, h0] at h
      exact List.mem_cons_of_mem _ (ih h)

theorem alookup_isSome_of_mem {K V : Type} [DecidableEq K]
    {l : List (K × V)} {p : K × V} (h : p ∈ l) : (alookup l p.1).isSome := by
  induction l with
  | nil => simp at h
  | cons q t ih =>
    obtain ⟨k0, v0⟩ := q
    by_cases h0 : k0 = p.1
    · simp [alookup, h0]
    · rcases List.mem_cons.mp h with h1 | h1
      · subst h1
        simp at h0
      · simp [alookup, h0]
        exact ih h1

/-- C7: every media datagram shorter than 32 bytes is dropped without side
effects: the state is unchanged (no binding, no index mutation) and zero
outbound datagrams are produced (src/server.py lines 154-155). -/
theorem udp_short_datagram_dropped (s : ServerState) (addr : Endpoint)
    (data : List Nat) (h : data.length < 32) : udp_step s addr data = (s, []) := by
  simp [udp_step, h]

theorem udp_short_datagram_dropped_witness :
    ([1, 2, 3] : List Nat).length < 32 ∧
      udp_step stateAliceBob (9, 9) [1, 2, 3] = (stateAliceBob, []) :=
  ⟨by decide, udp_short_datagram_dropped stateAliceBob (9, 9) [1, 2, 3] (by decide)⟩

/-- C4: a join request whose user name is already registered is answered
with `{"error": "Имя уже занято"}`, the connection does not proceed to the
ACTIVE loop (it is closed, src/server.py lines 70-74), and the registry is
completely unchanged: the returned state is the input state, so all indices
and the previously registered participant are untouched. -/
theorem join_name_taken_rejected (s : ServerState) (conn : Nat) (u : String)
    (c0 : ClientInfo) (mr mp : Option String)
    (h : alookup s.clients_by_name u = some c0) :
    handshake s conn (some ⟨some "join", some u, mr, mp⟩) =
      (s, [OutMsg.err "Имя уже занято"], false) := by
  simp [handshake, h]

theorem join_name_taken_rejected_witness :
    alookup stateAliceBob.clients_by_name "Alice" =
        some ⟨"Alice", 0, none, "general"⟩ ∧
      handshake stateAliceBob 2
          (some ⟨some "join", some "Alice", some "general", none⟩) =
        (stateAliceBob, [OutMsg.err "Имя уже занято"], false) :=
  ⟨by decide,
   join_name_taken_rejected stateAliceBob 2 "Alice" ⟨"Alice", 0, none, "general"⟩
     (some "general") none (by decide)⟩

/-- C10: in the ACTIVE state, a `text` message without the required
`payload` key raises (`KeyError` from `msg['payload']`,
src/server.py line 116); the session loop catches the exception, breaks and
runs `cleanup_client` — the connection terminates.  A message of an
unrecognized type instead falls through `handle_tcp_message`
(src/server.py line 132), is silently ignored and the session stays open. -/
theorem active_missing_key_raises_and_closes (s : ServerState) (conn : Nat)
    (c : ClientInfo) (mu mr mp : Option String) (ty : String)
    (hc : alookup s.clients_by_tcp conn = some c)
    (h1 : ty ≠ "text") (h2 : ty ≠ "list_rooms") (h3 : ty ≠ "list_users")
    (h4 : ty ≠ "leave") :
    handle_tcp_message s conn ⟨some "text", mu, mr, none⟩ = MsgResult.exn
    ∧ session_step s conn (some ⟨some "text", mu, mr, none⟩) =
        (cleanup_client s conn, [], false)
    ∧ session_step s conn (some ⟨some ty, mu, mr, mp⟩) = (s, [], true) := by
  refine ⟨by simp [handle_tcp_message, hc], ?_, ?_⟩
  · simp [session_step, handle_tcp_message, hc]
  · simp [session_step, handle_tcp_message, hc, h1, h2, h3, h4]

theorem active_missing_key_raises_and_closes_witness :
    alookup stateAliceBob.clients_by_tcp 0 =
        some ⟨"Alice", 0, none, "general"⟩ ∧
      ("ping" : String) ≠ "text" ∧
      (handle_tcp_message stateAliceBob 0 ⟨some "text", none, none, none⟩ =
          MsgResult.exn
        ∧ session_step stateAliceBob 0 (some ⟨some "text", none, none, none⟩) =
            (cleanup_client stateAliceBob 0, [], false)
        ∧ session_step stateAliceBob 0 (some ⟨some "ping", none, none, none⟩) =
            (stateAliceBob, [], true)) :=
  ⟨by decide, by decide,
   active_missing_key_raises_and_closes stateAliceBob 0
     ⟨"Alice", 0, none, "general"⟩ none none none "ping" (by decide)
     (by decide) (by decide) (by decide) (by decide)⟩

/-- C5: a `text` message with payload `p` from the joined participant at
`conn` (name `u`, room `R` with member set `members`) is fanned out as
`{"type":"text","payload":"u: p"}`; a target receives it iff it is the
`tcp_conn` of a member of `R` other than the sender, every send carries
exactly that message, every send is addressed to a member of `R`, and the
registry is unchanged (src/server.py lines 113-116 and 135-142). -/
theorem text_fanout_room_only (s : ServerState) (conn : Nat) (cl : ClientInfo)
    (members : List ClientInfo) (p : String) (mu mr : Option String)
    (hc : alookup s.clients_by_tcp conn = some cl)
    (hm : alookup s.rooms cl.room = some members) :
    ∃ sends, handle_tcp_message s conn ⟨some "text", mu, mr, some p⟩ =
        MsgResult.ok s sends false
      ∧ (∀ t : Nat, (t, OutMsg.text (cl.name ++ ": " ++ p)) ∈ sends ↔
          ∃ c ∈ members, c.tcp_conn = t ∧ t ≠ conn)
      ∧ (∀ q ∈ sends, q.2 = OutMsg.text (cl.name ++ ": " ++ p)
          ∧ ∃ c ∈ members, c.tcp_conn = q.1 ∧ q.1 ≠ conn) := by
  have hens : roomsEnsure s cl.room = s := by
    simp [roomsEnsure, hm]
  refine ⟨(members.filter (fun c => c.tcp_conn ≠ conn)).map
    (fun c => (c.tcp_conn, OutMsg.text (cl.name ++ ": " ++ p))), ?_, ?_, ?_⟩
  · simp [handle_tcp_message, hc, broadcast_text, hens, roomsGet, hm]
  · intro t
    constructor
    · intro ht
      simp [List.mem_map, List.mem_filter] at ht
      obtain ⟨c, ⟨hcm, hcne⟩, hct⟩ := ht
      exact ⟨c, hcm, hct, by rw [← hct]; exact hcne⟩
    · rintro ⟨c, hcm, hct, htc⟩
      simp [List.mem_map, List.mem_filter]
      exact ⟨c, ⟨hcm, by rw [hct]; exact htc⟩, hct⟩
  · intro q hq
    simp [List.mem_map, List.mem_filter] at hq
    obtain ⟨c, ⟨hcm, hcne⟩, hcq⟩ := hq
    refine ⟨by rw [← hcq], c, hcm, by rw [← hcq], by rw [← hcq]; simpa using hcne⟩

theorem text_fanout_room_only_witness :
    alookup stateAliceBob.clients_by_tcp 0 =
        some ⟨"Alice", 0, none, "general"⟩ ∧
      alookup stateAliceBob.rooms "general" =
        some [⟨"Alice", 0, none, "general"⟩, ⟨"Bob", 1, none, "general"⟩] ∧
      ∃ sends, handle_tcp_message stateAliceBob 0
          ⟨some "text", none, none, some "hi"⟩ = MsgResult.ok stateAliceBob sends false
        ∧ (∀ t : Nat, (t, OutMsg.text ("Alice" ++ ": " ++ "hi")) ∈ sends ↔
            ∃ c ∈ [(⟨"Alice", 0, none, "general"⟩ : ClientInfo),
                   ⟨"Bob", 1, none, "general"⟩], c.tcp_conn = t ∧ t ≠ 0)
        ∧ (∀ q ∈ sends, q.2 = OutMsg.text ("Alice" ++ ": " ++ "hi")
            ∧ ∃ c ∈ [(⟨"Alice", 0, none, "general"⟩ : ClientInfo),
                     ⟨"Bob", 1, none, "general"⟩], c.tcp_conn = q.1 ∧ q.1 ≠ 0) :=
  ⟨by decide, by decide,
   text_fanout_room_only stateAliceBob 0 ⟨"Alice", 0, none, "general"⟩
     [⟨"Alice", 0, none, "general"⟩, ⟨"Bob", 1, none, "general"⟩] "hi" none none
     (by decide) (by decide)⟩

theorem alookup_eq_none_of_keys {K V : Type} [DecidableEq K]
    (l : List (K × V)) (k : K) (h : ∀ pr ∈ l, pr.1 ≠ k) : alookup l k = none := by
  induction l with
  | nil => simp [alookup]
  | cons q t ih =>
    obtain ⟨k0, v0⟩ := q
    have hk0 : k0 ≠ k := h (k0, v0) (by simp)
    simp [alookup, hk0]
    exact ih (fun pr hpr => h pr (List.mem_cons_of_mem _ hpr))

theorem alookup_filter_none {K V : Type} [DecidableEq K]
    (l : List (K × V)) (k : K) (v : V) (pf : K × V → Bool)
    (hnd : (l.map Prod.fst).Nodup) (h : alookup l k = some v)
    (hp : pf (k, v) = false) : alookup (l.filter pf) k = none := by
  induction l with
  | nil => simp [alookup] at h
  | cons q t ih =>
    obtain ⟨k0, v0⟩ := q
    rw [List.map_cons, List.nodup_cons] at hnd
    by_cases h0 : k0 = k
    · subst h0
      simp [alookup] at h
      subst h
      rw [List.filter_cons]
      simp [hp]
      apply alookup_eq_none_of_keys
      intro pr hpr hk
      apply hnd.1
      have hmem : pr ∈ t := List.mem_of_mem_filter hpr
      have hmf : pr.1 ∈ t.map Prod.fst := List.mem_map_of_mem Prod.fst hmem
      rwa [hk] at hmf
    · rw [List.filter_cons]
      have ht : alookup t k = some v := by simpa [alookup, h0] using h
      by_cases hpf : pf (k0, v0)
      · simp [hpf, alookup, h0]
        exact ih hnd.2 ht
      · simp [hpf]
        exact ih hnd.2 ht

/-- C3: after `cleanup_client` for a registered connection, all four index
entries of the departed participant are gone (connection index, name index,
every UDP-endpoint entry carrying its name, and its room-set membership),
every later control message on the dead connection does nothing, and a
later media datagram from an endpoint the participant had bound (or any
datagram carrying its name, or a short datagram) produces no state change
and zero outbound datagrams (src/server.py lines 202-233, 107-108, 154-165). -/
theorem departed_client_fully_removed (s : ServerState) (conn : Nat)
    (client : ClientInfo)
    (hc : alookup s.clients_by_tcp conn = some client)
    (hnd : (s.udp_to_client.map Prod.fst).Nodup) :
    alookup (cleanup_client s conn).clients_by_tcp conn = none
    ∧ alookup (cleanup_client s conn).clients_by_name client.name = none
    ∧ (∀ p ∈ (cleanup_client s conn).udp_to_client, p.2.name ≠ client.name)
    ∧ client ∉ roomsGet (cleanup_client s conn) client.room
    ∧ (∀ m, handle_tcp_message (cleanup_client s conn) conn m =
        MsgResult.ok (cleanup_client s conn) [] false)
    ∧ (∀ a ca data, alookup s.udp_to_client a = some ca → ca.name = client.name →
        (extractName data = client.name ∨ data.length < 32) →
        udp_step (cleanup_client s conn) a data = (cleanup_client s conn, [])) := by
  have htcp : (cleanup_client s conn).clients_by_tcp = adel s.clients_by_tcp conn := by
    simp [cleanup_client, hc]
  have hname : (cleanup_client s conn).clients_by_name =
      adel s.clients_by_name client.name := by
    simp [cleanup_client, hc]
  have hudp : (cleanup_client s conn).udp_to_client =
      s.udp_to_client.filter (fun e => e.2.name ≠ client.name) := by
    simp [cleanup_client, hc]
  have h1 : alookup (cleanup_client s conn).clients_by_tcp conn = none := by
    rw [htcp]; exact alookup_adel_self _ _
  have h2 : alookup (cleanup_client s conn).clients_by_name client.name = none := by
    rw [hname]; exact alookup_adel_self _ _
  refine ⟨h1, h2, ?_, ?_, ?_, ?_⟩
  · intro p hp
    rw [hudp] at hp
    have := List.of_mem_filter hp
    simpa using this
  · show client ∉ roomsGet (cleanup_client s conn) client.room
    rw [roomsGet]
    simp only [cleanup_client, hc]
    split
    · rw [alookup_adel_self]
      simp
    · rw [alookup_aset_self]
      simp only [Option.getD_some]
      intro hmem
      have h3 := List.of_mem_filter hmem
      simp at h3
  · intro m
    simp [handle_tcp_message, h1]
  · intro a ca data ha hn hd
    have hanone : alookup (cleanup_client s conn).udp_to_client a = none := by
      rw [hudp]
      exact alookup_filter_none _ _ _ _ hnd ha (by simp [hn])
    rcases hd with hd | hd
    · by_cases hlen : data.length < 32
      · simp [udp_step, hlen]
      · by_cases hg : extractName data = "" ∨ 32 < (extractName data).length
        · simp [udp_step, hlen, hanone, hg]
        · simp [udp_step, hlen, hanone, hg, hd, h2]
    · simp [udp_step, hd]

theorem departed_client_fully_removed_witness :
    alookup stateAliceBob.clients_by_tcp 0 = some ⟨"Alice", 0, none, "general"⟩ ∧
      ((stateAliceBob.udp_to_client.map Prod.fst).Nodup) ∧
      (alookup (cleanup_client stateAliceBob 0).clients_by_tcp 0 = none
      ∧ alookup (cleanup_client stateAliceBob 0).clients_by_name "Alice" = none
      ∧ (∀ p ∈ (cleanup_client stateAliceBob 0).udp_to_client, p.2.name ≠ "Alice")
      ∧ (⟨"Alice", 0, none, "general"⟩ : ClientInfo) ∉
          roomsGet (cleanup_client stateAliceBob 0) "general"
      ∧ (∀ m, handle_tcp_message (cleanup_client stateAliceBob 0) 0 m =
          MsgResult.ok (cleanup_client stateAliceBob 0) [] false)
      ∧ (∀ a ca data,
          alookup stateAliceBob.udp_to_client a = some ca → ca.name = "Alice" →
          (extractName data = "Alice" ∨ data.length < 32) →
          udp_step (cleanup_client stateAliceBob 0) a data =
            (cleanup_client stateAliceBob 0, []))) :=
  ⟨by decide, by decide,
   departed_client_fully_removed stateAliceBob 0 ⟨"Alice", 0, none, "general"⟩
     (by decide) (by decide)⟩

theorem alookup_append_left {K V : Type} [DecidableEq K]
    (l1 l2 : List (K × V)) (k : K) (h : alookup l1 k = none) :
    alookup (l1 ++ l2) k = alookup l2 k := by
  induction l1 with
  | nil => simp
  | cons q t ih =>
    obtain ⟨k0, v0⟩ := q
    by_cases h0 : k0 = k
    · simp [alookup, h0] at h
    · simp [alookup, h0] at h ⊢
      exact ih h

theorem alookup_append_some {K V : Type} [DecidableEq K]
    (l1 l2 : List (K × V)) (k : K) (v : V) (h : alookup l1 k = some v) :
    alookup (l1 ++ l2) k = some v := by
  induction l1 with
  | nil => simp [alookup] at h
  | cons q t ih =>
    obtain ⟨k0, v0⟩ := q
    by_cases h0 : k0 = k
    · simp [alookup, h0] at h ⊢
      exact h
    · simp [alookup, h0] at h ⊢
      exact ih h

/-- The `defaultdict` access leaves the set read at the accessed key
unchanged (a missing key reads as the freshly inserted empty set). -/
theorem roomsGet_ensure (s : ServerState) (r r' : String) :
    roomsGet (roomsEnsure s r) r' = roomsGet s r' := by
  by_cases h : (alookup s.rooms r).isSome
  · rw [roomsEnsure, if_pos h]
  · rw [roomsEnsure, if_neg h]
    show (alookup (s.rooms ++ [(r, [])]) r').getD [] = (alookup s.rooms r').getD []
    cases halt : alookup s.rooms r'
    · rw [alookup_append_left _ _ _ halt]
      by_cases hr : r = r'
      · simp [alookup, hr]
      · simp [alookup, hr]
    · rw [alookup_append_some _ _ _ _ halt]

/-- C1: a media datagram (length ≥ 32) received from the bound endpoint
`pa` of participant P is sent to the bound endpoint `qa` of a distinct
participant Q iff Q's room is P's room, and every outbound datagram the
step produces is byte-equal to the received datagram and addressed to the
bound media endpoint of a member of P's room other than the sender —
peers without a bound `udp_addr` are skipped (src/server.py lines 184-196).
The hypotheses state that P is currently bound at `pa`, that Q (record
`cq`, in the room set of `rq`) has bound endpoint `qa ≠ pa`, that no other
member of P's room shares Q's endpoint, and that Q is in no other room set
(registry invariants for distinct participants). -/
theorem media_forwarded_iff_same_room (s : ServerState) (pa qa : Endpoint)
    (data : List Nat) (cp cq : ClientInfo) (rq : String)
    (hlen : 32 ≤ data.length)
    (hP : alookup s.udp_to_client pa = some cp)
    (hq : cq.udp_addr = some qa)
    (hmem : cq ∈ roomsGet s rq)
    (hne : qa ≠ pa)
    (huniq : ∀ c ∈ roomsGet s cp.room, c.udp_addr = some qa → c = cq)
    (honly : ∀ p ∈ s.rooms, cq ∈ p.2 → p.1 = rq) :
    ((qa, data) ∈ (udp_step s pa data).2 ↔ cp.room = rq)
    ∧ (∀ e d, (e, d) ∈ (udp_step s pa data).2 →
        d = data ∧ e ≠ pa ∧ ∃ c ∈ roomsGet s cp.room, c.udp_addr = some e) := by
  have hlen' : ¬ data.length < 32 := by omega
  have hout : (udp_step s pa data).2 =
      (roomsGet s cp.room).filterMap (fun other =>
        match other.udp_addr with
        | some a => if a ≠ pa then some (a, data) else none
        | none => none) := by
    simp [udp_step, hlen', hP, fanOut, roomsGet_ensure]
  constructor
  · constructor
    · intro hin
      rw [hout] at hin
      rw [List.mem_filterMap] at hin
      obtain ⟨c, hcm, hfc⟩ := hin
      have hcq : c = cq := by
        apply huniq c hcm
        cases hca : c.udp_addr with
        | none => simp [hca] at hfc
        | some a =>
          simp [hca] at hfc
          by_cases hap : a = pa
          · simp [hap] at hfc
          · simp [hap] at hfc
            exact congrArg some hfc
      subst hcq
      have hnonempty : (alookup s.rooms cp.room).isSome := by
        rw [roomsGet] at hcm
        cases halt : alookup s.rooms cp.room
        · rw [halt] at hcm
          simp at hcm
        · simp
      obtain ⟨l, hl⟩ := Option.isSome_iff_exists.mp hnonempty
      apply honly (cp.room, l) (alookup_mem hl)
      rw [roomsGet, hl] at hcm
      exact hcm
    · intro hr
      rw [hout, List.mem_filterMap]
      refine ⟨cq, by rw [hr]; exact hmem, ?_⟩
      simp [hq, hne]
  · intro e d hin
    rw [hout, List.mem_filterMap] at hin
    obtain ⟨c, hcm, hfc⟩ := hin
    cases hca : c.udp_addr with
    | none => simp [hca] at hfc
    | some a =>
      simp [hca] at hfc
      by_cases hap : a = pa
      · simp [hap] at hfc
      · simp [hap] at hfc
        exact ⟨hfc.2.symm, by rw [← hfc.1]; exact hap, c, hcm, by rw [hca, hfc.1]⟩

theorem media_forwarded_iff_same_room_witness :
    32 ≤ (prefAlice ++ [5]).length ∧
      alookup stateBound.udp_to_client (1, 1) =
        some ⟨"Alice", 0, some (1, 1), "general"⟩ ∧
      (⟨"Bob", 1, some (3, 3), "general"⟩ : ClientInfo) ∈
        roomsGet stateBound "general" ∧
      (((3, 3), prefAlice ++ [5]) ∈
          (udp_step stateBound (1, 1) (prefAlice ++ [5])).2 ↔
        (⟨"Alice", 0, some (1, 1), "general"⟩ : ClientInfo).room = "general")
      ∧ (∀ e d, (e, d) ∈ (udp_step stateBound (1, 1) (prefAlice ++ [5])).2 →
          d = prefAlice ++ [5] ∧ e ≠ (1, 1) ∧
          ∃ c ∈ roomsGet stateBound
            (⟨"Alice", 0, some (1, 1), "general"⟩ : ClientInfo).room,
            c.udp_addr = some e) :=
  ⟨by decide, by decide, by decide,
   media_forwarded_iff_same_room stateBound (1, 1) (3, 3) (prefAlice ++ [5])
     ⟨"Alice", 0, some (1, 1), "general"⟩ ⟨"Bob", 1, some (3, 3), "general"⟩
     "general" (by decide) (by decide) (by decide) (by decide) (by decide)
     (by decide) (by decide)⟩

theorem roomsEnsure_tcp (s : ServerState) (r : String) :
    (roomsEnsure s r).clients_by_tcp = s.clients_by_tcp := by
  rw [roomsEnsure]; split <;> rfl

theorem roomsEnsure_name (s : ServerState) (r : String) :
    (roomsEnsure s r).clients_by_name = s.clients_by_name := by
  rw [roomsEnsure]; split <;> rfl

theorem roomsEnsure_udp (s : ServerState) (r : String) :
    (roomsEnsure s r).udp_to_client = s.udp_to_client := by
  rw [roomsEnsure]; split <;> rfl

theorem utf8DecodeGo_length_le (rep : Bool) (fuel : Nat) (l : List Nat) :
    (utf8DecodeGo rep fuel l).length ≤ fuel := by
  induction fuel generalizing l with
  | zero => cases l <;> simp [utf8DecodeGo]
  | succ n ih =>
    cases l with
    | nil => simp [utf8DecodeGo]
    | cons b t =>
      simp only [utf8DecodeGo]
      rw [List.length_append]
      have hrec := ih (t.drop ((utf8Step b t).2 - 1))
      have hemit : (match (utf8Step b t).1 with
          | some c => [c]
          | none => if rep then [Char.ofNat 0xFFFD] else []).length ≤ 1 := by
        cases (utf8Step b t).1 with
        | some c => simp
        | none => cases rep <;> simp
      omega

/-- The name the binder extracts is never longer than 32 characters (it is
decoded from at most 32 bytes), so the `len(raw_name) > 32` guard of
src/server.py line 160 can never fire. -/
theorem length_dropWhile_le {A : Type} (p : A → Bool) (l : List A) :
    (l.dropWhile p).length ≤ l.length := by
  induction l with
  | nil => simp
  | cons b t ih =>
    rw [List.dropWhile_cons]
    split
    · exact le_trans ih (by simp)
    · simp

theorem extractName_length_le (data : List Nat) : (extractName data).length ≤ 32 := by
  have h1 : (dropTrailingZeros (data.take 32)).length ≤ 32 := by
    have h2 : ((data.take 32).reverse.dropWhile (fun b => b = 0)).length ≤
        (data.take 32).reverse.length := length_dropWhile_le _ _
    have h3 : (data.take 32).length ≤ 32 := List.length_take_le 32 data
    simp [dropTrailingZeros]
    simp at h2
    omega
  have h4 := utf8DecodeGo_length_le false
    (dropTrailingZeros (data.take 32)).length (dropTrailingZeros (data.take 32))
  show (utf8DecodeWith false (dropTrailingZeros (List.take 32 data))).length ≤ 32
  rw [utf8DecodeWith]
  omega

/-- C2 counterexample: Alice is bound at endpoint (1,1); a media datagram
carrying the name "Alice" then arrives from the different endpoint (2,2).
The claim says it is dropped and the binding left unchanged; in fact the
code rebinds Alice to (2,2) and forwards the datagram's payload to Bob. -/
theorem media_rebind_counterexample :
    alookup stateBound.clients_by_name "Alice" =
        some ⟨"Alice", 0, some (1, 1), "general"⟩
    ∧ alookup (udp_step stateBound (2, 2) (prefAlice ++ [8])).1.clients_by_name
        "Alice" = some ⟨"Alice", 0, some (2, 2), "general"⟩
    ∧ (udp_step stateBound (2, 2) (prefAlice ++ [8])).2 = [((3, 3), [8])] := by
  decide

/-- C2 amended: a participant's `media_endpoint` is NOT immutable.  A media
datagram carrying an already-registered name and arriving from a source
endpoint with no binding of its own re-binds that name: the name index (and
hence the participant record) now carries the new endpoint, the new
endpoint is mapped to the updated record in the endpoint index, and every
other endpoint's entry — including the participant's previous endpoint,
which now holds a stale record — is left as it was
(src/server.py lines 157-182, which never test `old.udp_addr`). -/
theorem media_rebind_updates_binding (s : ServerState) (a2 : Endpoint)
    (data : List Nat) (old : ClientInfo)
    (hlen : 32 ≤ data.length)
    (ha : alookup s.udp_to_client a2 = none)
    (hname : alookup s.clients_by_name (extractName data) = some old)
    (hne : extractName data ≠ "") :
    alookup (udp_step s a2 data).1.clients_by_name (extractName data) =
        some ⟨old.name, old.tcp_conn, some a2, old.room⟩
    ∧ alookup (udp_step s a2 data).1.udp_to_client a2 =
        some ⟨old.name, old.tcp_conn, some a2, old.room⟩
    ∧ (∀ a1, a1 ≠ a2 → alookup (udp_step s a2 data).1.udp_to_client a1 =
        alookup s.udp_to_client a1) := by
  have hlen' : ¬ data.length < 32 := by omega
  have hg : ¬ (extractName data = "" ∨ 32 < (extractName data).length) := by
    push_neg
    exact ⟨hne, by have := extractName_length_le data; omega⟩
  have hstate : (udp_step s a2 data).1 = roomsEnsure
      { s with
        clients_by_tcp := aset s.clients_by_tcp old.tcp_conn
          ⟨old.name, old.tcp_conn, some a2, old.room⟩,
        clients_by_name := aset s.clients_by_name (extractName data)
          ⟨old.name, old.tcp_conn, some a2, old.room⟩,
        rooms := aset s.rooms old.room
          (listAdd ((roomsGet s old.room).filter (fun x => x ≠ old))
            ⟨old.name, old.tcp_conn, some a2, old.room⟩),
        udp_to_client := aset s.udp_to_client a2
          ⟨old.name, old.tcp_conn, some a2, old.room⟩ }
      old.room := by
    simp [udp_step, hlen', ha, hg, hname, fanOut]
    rfl
  refine ⟨?_, ?_, ?_⟩
  · rw [hstate, roomsEnsure_name]
    exact alookup_aset_self _ _ _
  · rw [hstate, roomsEnsure_udp]
    exact alookup_aset_self _ _ _
  · intro a1 h1
    rw [hstate, roomsEnsure_udp]
    exact alookup_aset_ne _ _ _ _ h1

theorem media_rebind_updates_binding_witness :
    32 ≤ (prefAlice ++ [8]).length ∧
      alookup stateBound.udp_to_client (2, 2) = none ∧
      alookup stateBound.clients_by_name (extractName (prefAlice ++ [8])) =
        some ⟨"Alice", 0, some (1, 1), "general"⟩ ∧
      (alookup (udp_step stateBound (2, 2) (prefAlice ++ [8])).1.clients_by_name
          (extractName (prefAlice ++ [8])) =
            some ⟨"Alice", 0, some (2, 2), "general"⟩
        ∧ alookup (udp_step stateBound (2, 2)
            (prefAlice ++ [8])).1.udp_to_client (2, 2) =
            some ⟨"Alice", 0, some (2, 2), "general"⟩
        ∧ (∀ a1, a1 ≠ ((2 : Nat), (2 : Nat)) →
            alookup (udp_step stateBound (2, 2)
              (prefAlice ++ [8])).1.udp_to_client a1 =
              alookup stateBound.udp_to_client a1)) :=
  ⟨by decide, by decide, by decide,
   media_rebind_updates_binding stateBound (2, 2) (prefAlice ++ [8])
     ⟨"Alice", 0, some (1, 1), "general"⟩ (by decide) (by decide) (by decide)
     (by decide)⟩

theorem charOfNat_toNat_le (n : Nat) : (Char.ofNat n).toNat ≤ n := by
  rw [Char.ofNat]
  split
  · rw [Char.ofNatAux, Char.toNat]
    exact Nat.le_of_eq rfl
  · simp [Char.toNat, UInt32.toNat]

theorem charBytes_le_one (c : Char) (h : c.toNat < 0x80) : charBytes c ≤ 1 := by
  rw [charBytes]; split_ifs <;> omega

theorem charBytes_le_two (c : Char) (h : c.toNat < 0x800) : charBytes c ≤ 2 := by
  rw [charBytes]; split_ifs <;> omega

theorem charBytes_le_three (c : Char) (h : c.toNat < 0x10000) : charBytes c ≤ 3 := by
  rw [charBytes]; split_ifs <;> omega

theorem charBytes_le_four (c : Char) : charBytes c ≤ 4 := by
  rw [charBytes]; split_ifs <;> omega

theorem utf8Step_consumed (b : Nat) (t : List Nat) :
    1 ≤ (utf8Step b t).2 ∧ (utf8Step b t).2 ≤ 1 + t.length := by
  rw [utf8Step.eq_def]
  split_ifs with h1 h2 h3 h4
  · simp
  · cases t with
    | nil => simp
    | cons b2 t2 =>
      simp only []
      split_ifs <;> simp <;> try omega
  · cases t with
    | nil => simp
    | cons b2 t2 =>
      simp only []
      split_ifs with hc
      · cases t2 with
        | nil => simp
        | cons b3 t3 =>
          simp only []
          split_ifs <;> simp <;> try omega
      · simp
  · cases t with
    | nil => simp
    | cons b2 t2 =>
      simp only []
      split_ifs with hc
      · cases t2 with
        | nil => simp
        | cons b3 t3 =>
          simp only []
          split_ifs with hc3
          · cases t3 with
            | nil => simp; try omega
            | cons b4 t4 =>
              simp only []
              split_ifs <;> simp <;> try omega
          · simp
            omega
      · simp
  · simp

theorem utf8Step_charBytes (b : Nat) (t : List Nat) :
    ∀ c, (utf8Step b t).1 = some c → charBytes c ≤ (utf8Step b t).2 := by
  rw [utf8Step.eq_def]
  split_ifs with h1 h2 h3 h4
  · intro c hc
    simp at hc
    subst hc
    exact charBytes_le_one _ (lt_of_le_of_lt (charOfNat_toNat_le b) h1)
  · cases t with
    | nil => intro c hc; simp at hc
    | cons b2 t2 =>
      simp only []
      split_ifs with hcb
      · intro c hc
        simp at hc
        subst hc
        simp [contB] at hcb
        simp at h2
        refine charBytes_le_two _ ?_
        have := charOfNat_toNat_le ((b - 0xC0) * 0x40 + (b2 - 0x80))
        omega
      · intro c hc; simp at hc
  · cases t with
    | nil => intro c hc; simp at hc
    | cons b2 t2 =>
      simp only []
      split_ifs with hcb
      · cases t2 with
        | nil => intro c hc; simp at hc
        | cons b3 t3 =>
          simp only []
          split_ifs with hc3
          · intro c hc
            simp at hc
            subst hc
            simp at h3
            have hb2 : b2 ≤ 0xBF := by
              rw [cont3B] at hcb
              split_ifs at hcb <;> simp [contB] at hcb <;> omega
            refine charBytes_le_three _ ?_
            have := charOfNat_toNat_le
              (((b - 0xE0) * 0x40 + (b2 - 0x80)) * 0x40 + (b3 - 0x80))
            simp [contB] at hc3
            omega
          · intro c hc; simp at hc
      · intro c hc; simp at hc
  · cases t with
    | nil => intro c hc; simp at hc
    | cons b2 t2 =>
      simp only []
      split_ifs with hcb
      · cases t2 with
        | nil => intro c hc; simp at hc
        | cons b3 t3 =>
          simp only []
          split_ifs with hc3
          · cases t3 with
            | nil => intro c hc; simp at hc
            | cons b4 t4 =>
              simp only []
              split_ifs with hc4
              · intro c hc
                exact le_trans (charBytes_le_four _) (by simp)
              · intro c hc; simp at hc
          · intro c hc; simp at hc
      · intro c hc; simp at hc
  · intro c hc; simp at hc

theorem utf8DecodeGo_bytes_le (fuel : Nat) (l : List Nat) (hf : l.length ≤ fuel) :
    utf8Len (utf8DecodeGo false fuel l) ≤ l.length := by
  induction fuel generalizing l with
  | zero =>
    cases l with
    | nil => simp [utf8DecodeGo, utf8Len]
    | cons b t => simp at hf
  | succ n ih =>
    cases l with
    | nil => simp [utf8DecodeGo, utf8Len]
    | cons b t =>
      simp only [utf8DecodeGo]
      rw [utf8Len, List.map_append, List.sum_append]
      have hcons := utf8Step_consumed b t
      have hlen : (t.drop ((utf8Step b t).2 - 1)).length =
          t.length - ((utf8Step b t).2 - 1) := List.length_drop _ _
      have hrec := ih (t.drop ((utf8Step b t).2 - 1)) (by
        simp at hf
        omega)
      rw [utf8Len] at hrec
      cases hc : (utf8Step b t).1 with
      | none =>
        simp only [hc]
        simp
        omega
      | some c =>
        have hcb := utf8Step_charBytes b t c hc
        simp only [hc]
        simp
        omega

/-- The UTF-8 byte length of the name the binder extracts is at most 32
(the name is decoded from at most 32 bytes, and UTF-8 decoding with
`errors='ignore'` never produces a string longer than its input). -/
theorem extractName_strBytes_le (data : List Nat) :
    strBytes (extractName data) ≤ 32 := by
  have h1 : (dropTrailingZeros (data.take 32)).length ≤ 32 := by
    have h2 : ((data.take 32).reverse.dropWhile (fun b => b = 0)).length ≤
        (data.take 32).reverse.length := length_dropWhile_le _ _
    have h3 : (data.take 32).length ≤ 32 := List.length_take_le 32 data
    simp [dropTrailingZeros]
    simp at h2
    omega
  have h4 := utf8DecodeGo_bytes_le (dropTrailingZeros (data.take 32)).length
    (dropTrailingZeros (data.take 32)) (le_refl _)
  show utf8Len (utf8DecodeWith false (dropTrailingZeros (List.take 32 data))) ≤ 32
  rw [utf8DecodeWith]
  omega

/-- In the binding path — unknown source endpoint, valid nonempty extracted
name found in the name index — the state `udp_step` returns is the registry
with the name rebound to the new endpoint (the fan-out's `defaultdict`
access applied on top); src/server.py lines 157-182. -/
theorem udp_step_bind_state (s : ServerState) (a : Endpoint) (data : List Nat)
    (old : ClientInfo) (hlen : 32 ≤ data.length)
    (ha : alookup s.udp_to_client a = none)
    (hname : alookup s.clients_by_name (extractName data) = some old)
    (hne : extractName data ≠ "") :
    (udp_step s a data).1 = roomsEnsure
      { s with
        clients_by_tcp := aset s.clients_by_tcp old.tcp_conn
          ⟨old.name, old.tcp_conn, some a, old.room⟩,
        clients_by_name := aset s.clients_by_name (extractName data)
          ⟨old.name, old.tcp_conn, some a, old.room⟩,
        rooms := aset s.rooms old.room
          (listAdd ((roomsGet s old.room).filter (fun x => x ≠ old))
            ⟨old.name, old.tcp_conn, some a, old.room⟩),
        udp_to_client := aset s.udp_to_client a
          ⟨old.name, old.tcp_conn, some a, old.room⟩ }
      old.room := by
  have hlen' : ¬ data.length < 32 := by omega
  have hg : ¬ (extractName data = "" ∨ 32 < (extractName data).length) := by
    push_neg
    exact ⟨hne, by have := extractName_length_le data; omega⟩
  simp [udp_step, hlen', ha, hg, hname, fanOut]
  rfl

/-- C8 counterexample: on the 32-byte prefix `[0x41, 0xFF, 0, ..., 0]` the
code's `errors='ignore'` decoding yields `"A"` while the claimed
`errors='replace'` decoding yields `"A�"`; and with a participant
named "A" registered, the datagram actually binds "A" — under the claimed
replacement decoding the name would have been unregistered and the
datagram dropped. -/
theorem binder_decode_not_replace_counterexample :
    extractName ([65, 255] ++ List.replicate 30 0) = "A"
    ∧ extractNameReplace ([65, 255] ++ List.replicate 30 0) = "A�"
    ∧ extractName ([65, 255] ++ List.replicate 30 0) ≠
        extractNameReplace ([65, 255] ++ List.replicate 30 0)
    ∧ alookup (udp_step stateA (4, 4)
        ([65, 255] ++ List.replicate 30 0)).1.udp_to_client (4, 4) =
        some ⟨"A", 0, some (4, 4), "general"⟩
    ∧ alookup stateA.clients_by_name "A�" = none := by
  decide

/-- C8 amended: on the first media datagram from an unknown endpoint the
binder takes bytes 0..32, strips trailing zero bytes and decodes them as
UTF-8 with invalid sequences IGNORED (dropped, `errors='ignore'`) — that
is `extractName` — then drops the datagram when the decoded name is empty
(or unregistered), and on success binds exactly the decoded name's record
to the source endpoint (src/server.py lines 157-182). -/
theorem binder_extracts_name_ignore (s : ServerState) (a : Endpoint)
    (data : List Nat) (hlen : 32 ≤ data.length)
    (ha : alookup s.udp_to_client a = none) :
    (extractName data = "" → udp_step s a data = (s, []))
    ∧ (extractName data ≠ "" →
        alookup s.clients_by_name (extractName data) = none →
        udp_step s a data = (s, []))
    ∧ (∀ old, extractName data ≠ "" →
        alookup s.clients_by_name (extractName data) = some old →
        alookup (udp_step s a data).1.udp_to_client a =
          some ⟨old.name, old.tcp_conn, some a, old.room⟩) := by
  have hlen' : ¬ data.length < 32 := by omega
  refine ⟨?_, ?_, ?_⟩
  · intro he
    simp [udp_step, hlen', ha, he]
  · intro hne hnone
    have hg : ¬ (extractName data = "" ∨ 32 < (extractName data).length) := by
      push_neg
      exact ⟨hne, by have := extractName_length_le data; omega⟩
    simp [udp_step, hlen', ha, hg, hnone]
  · intro old hne hname
    rw [udp_step_bind_state s a data old hlen ha hname hne, roomsEnsure_udp]
    exact alookup_aset_self _ _ _

theorem binder_extracts_name_ignore_witness :
    32 ≤ ([65, 255] ++ List.replicate 30 0 : List Nat).length ∧
      alookup stateA.udp_to_client (4, 4) = none ∧
      ((extractName ([65, 255] ++ List.replicate 30 0) = "" →
          udp_step stateA (4, 4) ([65, 255] ++ List.replicate 30 0) = (stateA, []))
        ∧ (extractName ([65, 255] ++ List.replicate 30 0) ≠ "" →
            alookup stateA.clients_by_name
              (extractName ([65, 255] ++ List.replicate 30 0)) = none →
            udp_step stateA (4, 4) ([65, 255] ++ List.replicate 30 0) = (stateA, []))
        ∧ (∀ old, extractName ([65, 255] ++ List.replicate 30 0) ≠ "" →
            alookup stateA.clients_by_name
              (extractName ([65, 255] ++ List.replicate 30 0)) = some old →
            alookup (udp_step stateA (4, 4)
              ([65, 255] ++ List.replicate 30 0)).1.udp_to_client (4, 4) =
              some ⟨old.name, old.tcp_conn, some (4, 4), old.room⟩)) :=
  ⟨by decide, by decide,
   binder_extracts_name_ignore stateA (4, 4) ([65, 255] ++ List.replicate 30 0)
     (by decide) (by decide)⟩

theorem mem_listAdd_self {A : Type} [DecidableEq A] (l : List A) (a : A) :
    a ∈ listAdd l a := by
  rw [listAdd]
  split
  · assumption
  · simp

/-- C9: the join handshake validates only name uniqueness.  For every name
`u` not currently registered — with no emptiness or length check — the
join succeeds: the reply is `{"status":"joined",...}`, the session becomes
ACTIVE, and `u` is registered in the name index, the connection index and
the room set (src/server.py lines 62-83).  Yet when `u` is empty or its
UTF-8 encoding exceeds 32 bytes, no media datagram can ever bind a media
endpoint for `u`: a `udp_step` from any state leaves `u`'s name-index
entry untouched, because the extracted name is decoded from at most 32
bytes and empty names are rejected (src/server.py lines 159-161). -/
theorem join_validates_only_uniqueness (s : ServerState) (conn : Nat)
    (u r : String) (mp : Option String)
    (hu : alookup s.clients_by_name u = none) :
    ((handshake s conn (some ⟨some "join", some u, some r, mp⟩)).2 =
        ([OutMsg.joined r], true)
      ∧ alookup (handshake s conn
          (some ⟨some "join", some u, some r, mp⟩)).1.clients_by_name u =
          some ⟨u, conn, none, r⟩
      ∧ alookup (handshake s conn
          (some ⟨some "join", some u, some r, mp⟩)).1.clients_by_tcp conn =
          some ⟨u, conn, none, r⟩
      ∧ (⟨u, conn, none, r⟩ : ClientInfo) ∈
          roomsGet (handshake s conn
            (some ⟨some "join", some u, some r, mp⟩)).1 r)
    ∧ ((u = "" ∨ 32 < strBytes u) → ∀ s₂ a data,
        alookup (udp_step s₂ a data).1.clients_by_name u =
          alookup s₂.clients_by_name u) := by
  have hnotsome : ¬ (alookup s.clients_by_name u).isSome = true := by simp [hu]
  have hstate : handshake s conn (some ⟨some "join", some u, some r, mp⟩) =
      ({ s with
          clients_by_tcp := aset s.clients_by_tcp conn ⟨u, conn, none, r⟩,
          clients_by_name := aset s.clients_by_name u ⟨u, conn, none, r⟩,
          rooms := aset s.rooms r (listAdd (roomsGet s r) ⟨u, conn, none, r⟩) },
       [OutMsg.joined r], true) := by
    simp [handshake, hnotsome]
  constructor
  · refine ⟨by rw [hstate], ?_, ?_, ?_⟩
    · rw [hstate]
      exact alookup_aset_self _ _ _
    · rw [hstate]
      exact alookup_aset_self _ _ _
    · rw [hstate]
      show (⟨u, conn, none, r⟩ : ClientInfo) ∈
        (alookup (aset s.rooms r (listAdd (roomsGet s r) ⟨u, conn, none, r⟩)) r).getD []
      rw [alookup_aset_self]
      exact mem_listAdd_self _ _
  · intro hval s₂ a data
    by_cases hlen : data.length < 32
    · simp [udp_step, hlen]
    · cases hlook : alookup s₂.udp_to_client a with
      | some c => simp [udp_step, hlen, hlook, fanOut, roomsEnsure_name]
      | none =>
        by_cases hg : extractName data = "" ∨ 32 < (extractName data).length
        · simp [udp_step, hlen, hlook, hg]
        · cases hname : alookup s₂.clients_by_name (extractName data) with
          | none => simp [udp_step, hlen, hlook, hg, hname]
          | some old =>
            have hne : extractName data ≠ "" := by
              intro he
              exact hg (Or.inl he)
            have hneq : u ≠ extractName data := by
              rcases hval with hval | hval
              · intro he
                exact hne (he.symm.trans hval)
              · intro he
                have h1 : strBytes (extractName data) ≤ 32 :=
                  extractName_strBytes_le data
                rw [← he] at h1
                omega
            rw [udp_step_bind_state s₂ a data old (by omega) hlook hname hne,
              roomsEnsure_name]
            exact alookup_aset_ne _ _ _ _ hneq

theorem join_validates_only_uniqueness_witness :
    alookup initState.clients_by_name "aaaaaaaaaaaaaaaaaaaaaaaaaaaaaaaaa" =
        none ∧
      (((handshake initState 0 (some ⟨some "join",
            some "aaaaaaaaaaaaaaaaaaaaaaaaaaaaaaaaa", some "general", none⟩)).2 =
          ([OutMsg.joined "general"], true)
        ∧ alookup (handshake initState 0 (some ⟨some "join",
            some "aaaaaaaaaaaaaaaaaaaaaaaaaaaaaaaaa", some "general",
            none⟩)).1.clients_by_name "aaaaaaaaaaaaaaaaaaaaaaaaaaaaaaaaa" =
            some ⟨"aaaaaaaaaaaaaaaaaaaaaaaaaaaaaaaaa", 0, none, "general"⟩
        ∧ alookup (handshake initState 0 (some ⟨some "join",
            some "aaaaaaaaaaaaaaaaaaaaaaaaaaaaaaaaa", some "general",
            none⟩)).1.clients_by_tcp 0 =
            some ⟨"aaaaaaaaaaaaaaaaaaaaaaaaaaaaaaaaa", 0, none, "general"⟩
        ∧ (⟨"aaaaaaaaaaaaaaaaaaaaaaaaaaaaaaaaa", 0, none, "general"⟩ :
            ClientInfo) ∈
            roomsGet (handshake initState 0 (some ⟨some "join",
              some "aaaaaaaaaaaaaaaaaaaaaaaaaaaaaaaaa", some "general",
              none⟩)).1 "general")
      ∧ (("aaaaaaaaaaaaaaaaaaaaaaaaaaaaaaaaa" = "" ∨
            32 < strBytes "aaaaaaaaaaaaaaaaaaaaaaaaaaaaaaaaa") →
          ∀ s₂ a data, alookup
              (udp_step s₂ a data).1.clients_by_name
              "aaaaaaaaaaaaaaaaaaaaaaaaaaaaaaaaa" =
            alookup s₂.clients_by_name "aaaaaaaaaaaaaaaaaaaaaaaaaaaaaaaaa")) :=
  ⟨by decide,
   join_validates_only_uniqueness initState 0 "aaaaaaaaaaaaaaaaaaaaaaaaaaaaaaaaa"
     "general" none (by decide)⟩

theorem listAdd_ne_nil {A : Type} [DecidableEq A] (l : List A) (a : A) :
    listAdd l a ≠ [] := by
  rw [listAdd]
  split
  · intro he
    subst he
    simp_all
  · simp

theorem mem_listAdd {A : Type} [DecidableEq A] {l : List A} {x : A} (a : A)
    (h : x ∈ l) : x ∈ listAdd l a := by
  rw [listAdd]
  split
  · exact h
  · exact List.mem_append_left _ h

theorem mem_adel {K V : Type} [DecidableEq K]
    {l : List (K × V)} {k : K} {p : K × V} (h : p ∈ adel l k) : p ∈ l := by
  induction l with
  | nil => simpa [adel] using h
  | cons q t ih =>
    obtain ⟨k0, v0⟩ := q
    by_cases h0 : k0 = k
    · simp [adel, h0] at h
      exact List.mem_cons_of_mem _ (ih h)
    · simp [adel, h0] at h
      rcases h with h | h
      · simp [h]
      · exact List.mem_cons_of_mem _ (ih h)

theorem alookup_aset_cases {K V : Type} [DecidableEq K]
    {l : List (K × V)} {k k' : K} {v c : V}
    (h : alookup (aset l k v) k' = some c) :
    (k' = k ∧ c = v) ∨ (k' ≠ k ∧ alookup l k' = some c) := by
  by_cases hk : k' = k
  · subst hk
    rw [alookup_aset_self] at h
    exact Or.inl ⟨rfl, (Option.some_inj.mp h).symm⟩
  · rw [alookup_aset_ne _ _ _ _ hk] at h
    exact Or.inr ⟨hk, h⟩

theorem mem_roomsGet_isSome {s : ServerState} {r : String} {c : ClientInfo}
    (h : c ∈ roomsGet s r) : (alookup s.rooms r).isSome := by
  rw [roomsGet] at h
  cases halt : alookup s.rooms r
  · rw [halt] at h
    simp at h
  · simp

theorem roomsEnsure_of_isSome {s : ServerState} {r : String}
    (h : (alookup s.rooms r).isSome) : roomsEnsure s r = s := by
  rw [roomsEnsure, if_pos h]

/-- `roomsGet` on a state whose room index was `aset`. -/
theorem roomsGet_aset (rooms' : List (String × List ClientInfo))
    (tcp' : List (Nat × ClientInfo)) (nm' : List (String × ClientInfo))
    (udp' : List (Endpoint × ClientInfo)) (r x : String) (L : List ClientInfo) :
    roomsGet ⟨aset rooms' r L, tcp', nm', udp'⟩ x =
      if x = r then L else (alookup rooms' x).getD [] := by
  rw [roomsGet]
  by_cases hx : x = r
  · subst hx
    rw [alookup_aset_self, if_pos rfl]
    rfl
  · rw [alookup_aset_ne _ _ _ _ hx, if_neg hx]

theorem regInv_handshake (s : ServerState) (conn : Nat) (m : Option CtrlMsg)
    (h : RegInv s) : RegInv (handshake s conn m).1 := by
  obtain ⟨h1, h2, h3, h4, h5, h6⟩ := h
  cases m with
  | none => exact ⟨h1, h2, h3, h4, h5, h6⟩
  | some msg =>
    by_cases hty : msg.type = some "join"
    · cases huser : msg.user with
      | none =>
        have hst : (handshake s conn (some msg)).1 = s := by
          simp [handshake, hty, huser]
        rw [hst]
        exact ⟨h1, h2, h3, h4, h5, h6⟩
      | some user =>
        by_cases htaken : (alookup s.clients_by_name user).isSome
        · have hst : (handshake s conn (some msg)).1 = s := by
            simp [handshake, hty, huser, htaken]
          rw [hst]
          exact ⟨h1, h2, h3, h4, h5, h6⟩
        · have hnone : alookup s.clients_by_name user = none := by
            cases halt : alookup s.clients_by_name user
            · rfl
            · simp [halt] at htaken
          have hst : (handshake s conn (some msg)).1 =
              { s with
                clients_by_tcp := aset s.clients_by_tcp conn
                  ⟨user, conn, none, msg.room.getD "general"⟩,
                clients_by_name := aset s.clients_by_name user
                  ⟨user, conn, none, msg.room.getD "general"⟩,
                rooms := aset s.rooms (msg.room.getD "general")
                  (listAdd (roomsGet s (msg.room.getD "general"))
                    ⟨user, conn, none, msg.room.getD "general"⟩) } := by
            simp [handshake, hty, huser, htaken]
          rw [hst]
          refine ⟨?_, ?_, ?_, ?_, ?_, ?_⟩
          · intro p hp
            rcases mem_aset hp with hp | hp
            · rw [hp]
              exact listAdd_ne_nil _ _
            · exact h1 p hp
          · intro cn c hc
            rcases alookup_aset_cases hc with ⟨hcn, hcc⟩ | ⟨hcn, hcc⟩
            · subst hcc
              rw [roomsGet_aset]
              simp only [if_pos rfl]
              exact mem_listAdd_self _ _
            · have hmem := h2 cn c hcc
              rw [roomsGet_aset]
              by_cases hr : c.room = msg.room.getD "general"
              · rw [if_pos hr]
                rw [hr] at hmem
                exact mem_listAdd _ hmem
              · rw [if_neg hr]
                exact hmem
          · intro n c hc
            rcases alookup_aset_cases hc with ⟨hcn, hcc⟩ | ⟨hcn, hcc⟩
            · subst hcc
              rw [roomsGet_aset]
              simp only [if_pos rfl]
              exact mem_listAdd_self _ _
            · have hmem := h3 n c hcc
              rw [roomsGet_aset]
              by_cases hr : c.room = msg.room.getD "general"
              · rw [if_pos hr]
                rw [hr] at hmem
                exact mem_listAdd _ hmem
              · rw [if_neg hr]
                exact hmem
          · intro p hp
            obtain ⟨c', hc', hroom⟩ := h4 p hp
            have hpn : p.2.name ≠ user := by
              intro he
              rw [he, hnone] at hc'
              exact Option.noConfusion hc'
            refine ⟨c', ?_, hroom⟩
            show alookup (aset s.clients_by_name user _) p.2.name = some c'
            rw [alookup_aset_ne _ _ _ _ hpn]
            exact hc'
          · intro cn c hc
            rcases alookup_aset_cases hc with ⟨hcn, hcc⟩ | ⟨hcn, hcc⟩
            · subst hcc
              rw [hcn]
            · exact h5 cn c hcc
          · intro n c hc
            rcases alookup_aset_cases hc with ⟨hcn, hcc⟩ | ⟨hcn, hcc⟩
            · subst hcc
              rw [hcn]
            · exact h6 n c hcc
    · have hst : (handshake s conn (some msg)).1 = s := by
        simp [handshake, hty]
      rw [hst]
      exact ⟨h1, h2, h3, h4, h5, h6⟩

theorem regInv_cleanup (s : ServerState) (conn : Nat) (h : RegInv s) :
    RegInv (cleanup_client s conn) := by
  obtain ⟨h1, h2, h3, h4, h5, h6⟩ := h
  cases hc : alookup s.clients_by_tcp conn with
  | none =>
    have hst : cleanup_client s conn = s := by
      simp [cleanup_client, hc]
    rw [hst]
    exact ⟨h1, h2, h3, h4, h5, h6⟩
  | some client =>
    have hck : client.tcp_conn = conn := h5 conn client hc
    have htcp' : (cleanup_client s conn).clients_by_tcp =
        adel s.clients_by_tcp conn := by
      simp [cleanup_client, hc]
    have hname' : (cleanup_client s conn).clients_by_name =
        adel s.clients_by_name client.name := by
      simp [cleanup_client, hc]
    have hudp' : (cleanup_client s conn).udp_to_client =
        s.udp_to_client.filter (fun e => e.2.name ≠ client.name) := by
      simp [cleanup_client, hc]
    have hroomsGet : ∀ x, roomsGet (cleanup_client s conn) x =
        if x = client.room then
          (roomsGet s client.room).filter (fun y => y ≠ client)
        else roomsGet s x := by
      intro x
      rw [roomsGet]
      simp only [cleanup_client, hc]
      split
      · rename_i hemp
        by_cases hx : x = client.room
        · subst hx
          rw [alookup_adel_self, hemp, if_pos rfl]
          rfl
        · rw [alookup_adel_ne _ _ _ hx, if_neg hx]
          rfl
      · by_cases hx : x = client.room
        · subst hx
          rw [alookup_aset_self, if_pos rfl]
          rfl
        · rw [alookup_aset_ne _ _ _ _ hx, if_neg hx]
          rfl
    refine ⟨?_, ?_, ?_, ?_, ?_, ?_⟩
    · intro p hp
      revert hp
      simp only [cleanup_client, hc]
      split
      · intro hp
        exact h1 p (mem_adel hp)
      · rename_i hemp
        intro hp
        rcases mem_aset hp with hp | hp
        · rw [hp]
          exact hemp
        · exact h1 p hp
    · intro cn c hcc
      rw [htcp'] at hcc
      by_cases hcn : cn = conn
      · subst hcn
        rw [alookup_adel_self] at hcc
        exact Option.noConfusion hcc
      · rw [alookup_adel_ne _ _ _ hcn] at hcc
        have hmem := h2 cn c hcc
        have hcnk : c.tcp_conn = cn := h5 cn c hcc
        have hnec : c ≠ client := by
          intro heq
          rw [heq, hck] at hcnk
          exact hcn hcnk.symm
        rw [hroomsGet]
        by_cases hr : c.room = client.room
        · rw [if_pos hr]
          rw [hr] at hmem
          exact List.mem_filter.mpr ⟨hmem, by simp [hnec]⟩
        · rw [if_neg hr]
          exact hmem
    · intro n c hcc
      rw [hname'] at hcc
      by_cases hn : n = client.name
      · subst hn
        rw [alookup_adel_self] at hcc
        exact Option.noConfusion hcc
      · rw [alookup_adel_ne _ _ _ hn] at hcc
        have hmem := h3 n c hcc
        have hcnk : c.name = n := h6 n c hcc
        have hnec : c ≠ client := by
          intro heq
          rw [heq] at hcnk
          rw [← hcnk] at hn
          exact hn rfl
        rw [hroomsGet]
        by_cases hr : c.room = client.room
        · rw [if_pos hr]
          rw [hr] at hmem
          exact List.mem_filter.mpr ⟨hmem, by simp [hnec]⟩
        · rw [if_neg hr]
          exact hmem
    · intro p hp
      rw [hudp'] at hp
      have hpm : p ∈ s.udp_to_client := List.mem_of_mem_filter hp
      have hpn : p.2.name ≠ client.name := by
        have := List.of_mem_filter hp
        simpa using this
      obtain ⟨c', hc', hroom⟩ := h4 p hpm
      refine ⟨c', ?_, hroom⟩
      rw [hname', alookup_adel_ne _ _ _ hpn]
      exact hc'
    · intro cn c hcc
      rw [htcp'] at hcc
      by_cases hcn : cn = conn
      · subst hcn
        rw [alookup_adel_self] at hcc
        exact Option.noConfusion hcc
      · rw [alookup_adel_ne _ _ _ hcn] at hcc
        exact h5 cn c hcc
    · intro n c hcc
      rw [hname'] at hcc
      by_cases hn : n = client.name
      · subst hn
        rw [alookup_adel_self] at hcc
        exact Option.noConfusion hcc
      · rw [alookup_adel_ne _ _ _ hn] at hcc
        exact h6 n c hcc

theorem regInv_udp (s : ServerState) (a : Endpoint) (d : List Nat)
    (h : RegInv s) : RegInv (udp_step s a d).1 := by
  obtain ⟨h1, h2, h3, h4, h5, h6⟩ := h
  by_cases hlen : d.length < 32
  · have hst : (udp_step s a d).1 = s := by simp [udp_step, hlen]
    rw [hst]
    exact ⟨h1, h2, h3, h4, h5, h6⟩
  · cases hlook : alookup s.udp_to_client a with
    | some c =>
      obtain ⟨c', hc', hroom⟩ := h4 (a, c) (alookup_mem hlook)
      have hmem := h3 _ _ hc'
      have hsome : (alookup s.rooms c.room).isSome := by
        show (alookup s.rooms (a, c).2.room).isSome
        rw [← hroom]
        exact mem_roomsGet_isSome hmem
      have hst : (udp_step s a d).1 = s := by
        simp [udp_step, hlen, hlook, fanOut, roomsEnsure_of_isSome hsome]
      rw [hst]
      exact ⟨h1, h2, h3, h4, h5, h6⟩
    | none =>
      by_cases hg : extractName d = "" ∨ 32 < (extractName d).length
      · have hst : (udp_step s a d).1 = s := by simp [udp_step, hlen, hlook, hg]
        rw [hst]
        exact ⟨h1, h2, h3, h4, h5, h6⟩
      · cases hnm : alookup s.clients_by_name (extractName d) with
        | none =>
          have hst : (udp_step s a d).1 = s := by
            simp [udp_step, hlen, hlook, hg, hnm]
          rw [hst]
          exact ⟨h1, h2, h3, h4, h5, h6⟩
        | some old =>
          have hne : extractName d ≠ "" := fun he => hg (Or.inl he)
          have hold_name : old.name = extractName d := h6 _ _ hnm
          have hbs := udp_step_bind_state s a d old (by omega) hlook hnm hne
          have hsome : (alookup
              (aset s.rooms old.room
                (listAdd ((roomsGet s old.room).filter (fun x => x ≠ old))
                  ⟨old.name, old.tcp_conn, some a, old.room⟩)) old.room).isSome := by
            rw [alookup_aset_self]
            rfl
          have hst : (udp_step s a d).1 =
              { s with
                clients_by_tcp := aset s.clients_by_tcp old.tcp_conn
                  ⟨old.name, old.tcp_conn, some a, old.room⟩,
                clients_by_name := aset s.clients_by_name (extractName d)
                  ⟨old.name, old.tcp_conn, some a, old.room⟩,
                rooms := aset s.rooms old.room
                  (listAdd ((roomsGet s old.room).filter (fun x => x ≠ old))
                    ⟨old.name, old.tcp_conn, some a, old.room⟩),
                udp_to_client := aset s.udp_to_client a
                  ⟨old.name, old.tcp_conn, some a, old.room⟩ } := by
            rw [hbs]
            exact roomsEnsure_of_isSome hsome
          rw [hst]
          refine ⟨?_, ?_, ?_, ?_, ?_, ?_⟩
          · intro p hp
            rcases mem_aset hp with hp | hp
            · rw [hp]
              exact listAdd_ne_nil _ _
            · exact h1 p hp
          · intro cn c hcc
            rcases alookup_aset_cases hcc with ⟨hcn, hcv⟩ | ⟨hcn, hcv⟩
            · subst hcv
              rw [roomsGet_aset]
              simp only [if_pos rfl]
              exact mem_listAdd_self _ _
            · have hmem := h2 cn c hcv
              have hkey := h5 cn c hcv
              have hnec : c ≠ old := by
                intro heq
                rw [heq] at hkey
                exact hcn hkey.symm
              rw [roomsGet_aset]
              by_cases hr : c.room = old.room
              · rw [if_pos hr]
                rw [hr] at hmem
                exact mem_listAdd _ (List.mem_filter.mpr ⟨hmem, by simp [hnec]⟩)
              · rw [if_neg hr]
                exact hmem
          · intro n c hcc
            rcases alookup_aset_cases hcc with ⟨hcn, hcv⟩ | ⟨hcn, hcv⟩
            · subst hcv
              rw [roomsGet_aset]
              simp only [if_pos rfl]
              exact mem_listAdd_self _ _
            · have hmem := h3 n c hcv
              have hkey := h6 n c hcv
              have hnec : c ≠ old := by
                intro heq
                rw [heq] at hkey
                rw [hold_name] at hkey
                exact hcn hkey.symm
              rw [roomsGet_aset]
              by_cases hr : c.room = old.room
              · rw [if_pos hr]
                rw [hr] at hmem
                exact mem_listAdd _ (List.mem_filter.mpr ⟨hmem, by simp [hnec]⟩)
              · rw [if_neg hr]
                exact hmem
          · intro p hp
            rcases mem_aset hp with hp | hp
            · rw [hp]
              refine ⟨⟨old.name, old.tcp_conn, some a, old.room⟩, ?_, rfl⟩
              show alookup (aset s.clients_by_name (extractName d) _) old.name =
                some _
              rw [hold_name, alookup_aset_self]
            · obtain ⟨c', hc', hroom⟩ := h4 p hp
              by_cases hpn : p.2.name = extractName d
              · have hco : c' = old := by
                  rw [hpn, hnm] at hc'
                  exact (Option.some_inj.mp hc').symm
                refine ⟨⟨old.name, old.tcp_conn, some a, old.room⟩, ?_, ?_⟩
                · show alookup (aset s.clients_by_name (extractName d) _)
                    p.2.name = some _
                  rw [hpn, alookup_aset_self]
                · show old.room = p.2.room
                  rw [← hroom, hco]
              · refine ⟨c', ?_, hroom⟩
                show alookup (aset s.clients_by_name (extractName d) _)
                  p.2.name = some c'
                rw [alookup_aset_ne _ _ _ _ hpn]
                exact hc'
          · intro cn c hcc
            rcases alookup_aset_cases hcc with ⟨hcn, hcv⟩ | ⟨hcn, hcv⟩
            · subst hcv
              rw [hcn]
            · exact h5 cn c hcv
          · intro n c hcc
            rcases alookup_aset_cases hcc with ⟨hcn, hcv⟩ | ⟨hcn, hcv⟩
            · subst hcv
              rw [hcn]
              exact hold_name
            · exact h6 n c hcv

/-- Under the membership invariant, `handle_tcp_message` never mutates the
registry: the `defaultdict` access in `broadcast_text` is a no-op because a
joined sender's room is always present. -/
theorem handle_msg_ok_state (s : ServerState) (conn : Nat) (m : CtrlMsg)
    (h2 : InvTcpMem s) :
    ∀ s' sends lv, handle_tcp_message s conn m = MsgResult.ok s' sends lv →
      s' = s := by
  intro s' sends lv he
  cases hc : alookup s.clients_by_tcp conn with
  | none =>
    simp only [handle_tcp_message, hc] at he
    cases he
    rfl
  | some client =>
    simp only [handle_tcp_message, hc] at he
    split_ifs at he with ht hlr hlu hlv
    · cases hp : m.payload with
      | none =>
        rw [hp] at he
        simp at he
      | some p =>
        rw [hp] at he
        have hmem := h2 conn client hc
        have hsome := mem_roomsGet_isSome hmem
        simp only [broadcast_text, roomsEnsure_of_isSome hsome] at he
        cases he
        rfl
    · cases he
      rfl
    · cases he
      rfl
    · cases he
      rfl
    · cases he
      rfl

theorem regInv_session (s : ServerState) (conn : Nat) (m : Option CtrlMsg)
    (h : RegInv s) : RegInv (session_step s conn m).1 := by
  cases m with
  | none => exact regInv_cleanup s conn h
  | some msg =>
    cases hr : handle_tcp_message s conn msg with
    | exn =>
      have hst : (session_step s conn (some msg)).1 = cleanup_client s conn := by
        simp [session_step, hr]
      rw [hst]
      exact regInv_cleanup s conn h
    | ok s' sends lv =>
      have hse : s' = s := handle_msg_ok_state s conn msg h.2.1 s' sends lv hr
      cases lv with
      | true =>
        have hst : (session_step s conn (some msg)).1 = cleanup_client s' conn := by
          simp [session_step, hr]
        rw [hst, hse]
        exact regInv_cleanup s conn h
      | false =>
        have hst : (session_step s conn (some msg)).1 = s' := by
          simp [session_step, hr]
        rw [hst, hse]
        exact h

/-- Every reachable server state satisfies the registry invariants. -/
theorem regInv_reachable (s : ServerState) (h : Reachable s) : RegInv s := by
  induction h with
  | init =>
    refine ⟨?_, ?_, ?_, ?_, ?_, ?_⟩
    · intro p hp
      simp [initState] at hp
    · intro cn c hcc
      simp [initState, alookup] at hcc
    · intro n c hcc
      simp [initState, alookup] at hcc
    · intro p hp
      simp [initState] at hp
    · intro cn c hcc
      simp [initState, alookup] at hcc
    · intro n c hcc
      simp [initState, alookup] at hcc
  | hs s conn m _ ih => exact regInv_handshake s conn m ih
  | step s conn m _ ih => exact regInv_session s conn m ih
  | disconnect s conn _ ih => exact regInv_cleanup s conn ih
  | media s a d _ ih => exact regInv_udp s a d ih

/-- C6: in every reachable state, a room name is present in the room index
iff its participant set is non-empty; hence `list_rooms` (the keys of the
room index, src/server.py line 120) reports exactly the rooms with at
least one participant.  Joins insert the joining client into the room set
they create (line 80), `cleanup_client` deletes a room that becomes empty
(lines 211-213), and every other `rooms[...]` access happens for a room
that is guaranteed non-empty by the registry invariants. -/
theorem room_present_iff_nonempty (s : ServerState) (r : String)
    (h : Reachable s) :
    r ∈ listRooms s ↔ ∃ l, alookup s.rooms r = some l ∧ l ≠ [] := by
  have hinv := regInv_reachable s h
  constructor
  · intro hr
    rw [listRooms] at hr
    obtain ⟨p, hp, hpr⟩ := List.mem_map.mp hr
    have hs := alookup_isSome_of_mem hp
    rw [hpr] at hs
    obtain ⟨l, hl⟩ := Option.isSome_iff_exists.mp hs
    refine ⟨l, hl, ?_⟩
    exact hinv.1 (r, l) (alookup_mem hl)
  · rintro ⟨l, hl, -⟩
    rw [listRooms]
    exact List.mem_map.mpr ⟨(r, l), alookup_mem hl, rfl⟩

theorem room_present_iff_nonempty_witness :
    Reachable stateAliceBob ∧
      ("general" ∈ listRooms stateAliceBob ↔
        ∃ l, alookup stateAliceBob.rooms "general" = some l ∧ l ≠ []) :=
  have hreach : Reachable stateAliceBob :=
    Reachable.hs _ 1 (some ⟨some "join", some "Bob", some "general", none⟩)
      (Reachable.hs _ 0 (some ⟨some "join", some "Alice", some "general", none⟩)
        Reachable.init)
  ⟨hreach, room_present_iff_nonempty stateAliceBob "general" hreach⟩
